import Mathlib

/-!
Verification of the `genhtml-report-parser` repository: a shallow embedding of
the report-tree differ (`src/analyzer.ts`) and of the report parser
(`src/parser.ts`, in its fullest variant, the one whose types the analyzer
imports: recursive `parseChildren`, row skipping, directory flattening).

Modelling conventions:
- JavaScript `number` values are modelled as `ℚ`.  All numeric values handled
  by the code are parsed from decimal numerals and combined only by exact
  subtraction (`fraction.js` on the coverage field, integer-valued line counts
  elsewhere), so rationals are a faithful carrier; `parseFloat`'s NaN outcome
  on unparseable text is modelled as `Option.none` of the parse.
- A thrown JavaScript exception is modelled by `Res.thrown`.
- The DOM collaborator (`deno-dom`) is modelled by records carrying exactly
  the texts the source queries out of a document (summary header/value cells,
  the table-kind cell, and per row the optional name cell, the coverage-tier
  cell and the numeric cells from the 4th column on).
- The path collaborator (`@std/path`, out of scope per the spec) is modelled
  for normalized POSIX paths: `resolve` joins with `/` unless the argument is
  absolute, `relative` strips the base prefix (the only case the theorems
  exercise).
-/

namespace Genhtml

/-- Result of a JavaScript computation that can throw: `thrown` models an
exception escaping the modelled code, `value` a normal return. -/
inductive Res (α : Type) where
  | thrown
  | value (a : α)
deriving DecidableEq, Repr

/-- Map over a `Res`, propagating `thrown`. -/
def Res.map (f : α → β) : Res α → Res β
  | .thrown => .thrown
  | .value a => .value (f a)

/-- Model of JavaScript `String.prototype.trim` (as applied to the
`textContent` of DOM cells): drop whitespace from both ends. -/
def trimS (s : String) : String :=
  ⟨((s.data.dropWhile Char.isWhitespace).reverse.dropWhile Char.isWhitespace).reverse⟩

/-- Digits-to-number accumulator used by the `parseFloat` model. -/
def natOfDigits (cs : List Char) : Nat :=
  cs.foldl (fun acc c => 10 * acc + (c.toNat - '0'.toNat)) 0

/-- Model of `parseFloat` on the (already trimmed) cell texts the source feeds
it: an optional sign followed by a decimal numeral, trailing garbage ignored
as `parseFloat` does; `none` models the NaN result on unparseable text. -/
def parseFloatQ (s : String) : Option ℚ :=
  let signAndRest : ℚ × List Char :=
    match s.data with
    | '-' :: r => (-1, r)
    | '+' :: r => (1, r)
    | cs => (1, cs)
  let ip := signAndRest.2.takeWhile Char.isDigit
  let rest := signAndRest.2.dropWhile Char.isDigit
  match rest with
  | '.' :: r2 =>
    let fp := r2.takeWhile Char.isDigit
    if ip.isEmpty ∧ fp.isEmpty then none
    else some (signAndRest.1 *
      ((natOfDigits ip : ℚ) + (natOfDigits fp : ℚ) / (10 ^ fp.length)))
  | _ => if ip.isEmpty then none else some (signAndRest.1 * (natOfDigits ip : ℚ))

/-- Source `parseCoverage` (identical in `parser.ts` and its variants): strip
a literal `" %"` suffix if present, then `parseFloat`. -/
def parseCoverage (coverage : String) : Option ℚ :=
  if coverage.data.reverse.take 2 = ['%', ' '] then
    parseFloatQ ⟨(coverage.data.reverse.drop 2).reverse⟩
  else parseFloatQ coverage

/-! ## The differ's data model (`src/analyzer.ts` over the parser's types) -/

/-- Source `FilePath`: absolute and relative representations of one path. -/
structure FilePath where
  absolute : String
  relative : String
deriving DecidableEq, Repr

/-- The two node kinds of the report tree (`"File" | "Directory"`). -/
inductive NodeKind where
  | File
  | Directory
deriving DecidableEq, Repr

/-- Source `GenhtmlReportStats`: `Coverage`/`Total`/`Hit` mandatory, twelve
optional categories. -/
structure Stats where
  Coverage : ℚ
  Total : ℚ
  Hit : ℚ
  UNC : Option ℚ := none
  LBC : Option ℚ := none
  UIC : Option ℚ := none
  UBC : Option ℚ := none
  GBC : Option ℚ := none
  GIC : Option ℚ := none
  GNC : Option ℚ := none
  CBC : Option ℚ := none
  EUB : Option ℚ := none
  ECB : Option ℚ := none
  DUB : Option ℚ := none
  DCB : Option ℚ := none
deriving DecidableEq, Repr

/-- Source `GenhtmlReportChild`: a file node or a directory node with its own
children (the analyzer recursively diffs `children`, so the model keeps the
recursive shape). -/
inductive Child where
  | file (path : FilePath) (stats : Stats)
  | dir (path : FilePath) (stats : Stats) (children : List Child)

/-- Relative-path key of a child (`child.path.relative`). -/
def Child.rel : Child → String
  | .file p _ => p.relative
  | .dir p _ _ => p.relative

/-- Node kind of a child (`child.type`). -/
def Child.kind : Child → NodeKind
  | .file _ _ => .File
  | .dir _ _ _ => .Directory

/-- Statistics of a child (`child.stats`). -/
def Child.stats : Child → Stats
  | .file _ s => s
  | .dir _ s _ => s

/-- Children of a child (`child.children` for directories, nothing for
files). -/
def Child.children : Child → List Child
  | .file _ _ => []
  | .dir _ _ cs => cs

/-- Source `DiffType`. -/
inductive DiffType where
  | added
  | removed
  | changed
deriving DecidableEq, Repr

/-- Source `DiffStats`: second node's `Coverage`/`Total`/`Hit` plus the three
optional deltas. -/
structure DiffStats where
  Coverage : ℚ
  Total : ℚ
  Hit : ℚ
  CoverageDelta : Option ℚ
  TotalDelta : Option ℚ
  HitDelta : Option ℚ
deriving DecidableEq, Repr

/-- Source `DiffNode`; `stats` and `children` are optional exactly as the
source's optional object fields are. -/
inductive DiffNode where
  | mk (type : DiffType) (nodeType : NodeKind) (path : String)
       (stats : Option DiffStats) (children : Option (List DiffNode))

/-- Change classification of a diff node. -/
def DiffNode.type : DiffNode → DiffType
  | .mk t _ _ _ _ => t

/-- Node kind recorded in a diff node. -/
def DiffNode.nodeType : DiffNode → NodeKind
  | .mk _ nt _ _ _ => nt

/-- Path key recorded in a diff node. -/
def DiffNode.path : DiffNode → String
  | .mk _ _ p _ _ => p

/-- Optional stats delta of a diff node. -/
def DiffNode.stats : DiffNode → Option DiffStats
  | .mk _ _ _ st _ => st

/-- Optional child diffs of a diff node. -/
def DiffNode.children : DiffNode → Option (List DiffNode)
  | .mk _ _ _ _ cs => cs

/-- Source `DiffRoot`. -/
structure DiffRoot where
  stats : Option DiffStats
  children : List DiffNode

/-- Root object of a parsed report as the analyzer consumes it
(`report.root`). -/
structure ReportRoot where
  path : FilePath
  stats : Stats
  children : List Child

/-- Source `GenhtmlReport`. -/
structure Report where
  directory : String
  root : ReportRoot

/-- Source `statsDiff`: exact (fraction.js) coverage delta plus total/hit
deltas; `none` when all three deltas are zero. -/
def statsDiff (a b : Stats) : Option DiffStats :=
  let CoverageDelta := b.Coverage - a.Coverage
  let TotalDelta := b.Total - a.Total
  let HitDelta := b.Hit - a.Hit
  if CoverageDelta ≠ 0 ∨ TotalDelta ≠ 0 ∨ HitDelta ≠ 0 then
    some ⟨b.Coverage, b.Total, b.Hit, some CoverageDelta, some TotalDelta, some HitDelta⟩
  else
    none

/-- Lookup in the map built by source `buildMap`: keyed by
`child.path.relative`, a later child with the same key overwrites an earlier
one (JavaScript `Map.set`), hence the last matching child wins. -/
def mapGet (children : List Child) (k : String) : Option Child :=
  children.reverse.find? (fun c => c.rel == k)

/-- Key sequence of the map built by source `buildMap` (`Map.keys()` order:
first insertion wins). -/
def relKeys (children : List Child) : List String :=
  children.map Child.rel

/-- First-occurrence deduplication with an accumulator, modelling the
insertion order of a JavaScript `Set`/`Map` key iteration. -/
def keysAux (acc : List String) : List String → List String
  | [] => acc
  | k :: ks => keysAux (if acc.contains k then acc else acc ++ [k]) ks

/-- Source `new Set([...aMap.keys(), ...bMap.keys()])`: the union of both
sides' keys in first-insertion order. -/
def allKeys (a b : List Child) : List String :=
  keysAux [] (relKeys a ++ relKeys b)

/-- Stats attached to an `added` diff node: the node's own statistics with
each delta equal to the statistic itself (delta from an all-zero baseline),
exactly the object literal the source builds in the `added` branch. -/
def addedStats (s : Stats) : DiffStats :=
  ⟨s.Coverage, s.Total, s.Hit, some s.Coverage, some s.Total, some s.Hit⟩

theorem mapGet_mem {l : List Child} {k : String} {n : Child}
    (h : mapGet l k = some n) : n ∈ l := by
  unfold mapGet at h
  exact List.mem_reverse.mp (List.mem_of_find?_eq_some h)

theorem sizeOf_mapGet_le (l : List Child) (k : String) :
    sizeOf (mapGet l k) ≤ sizeOf l := by
  cases h : mapGet l k with
  | none =>
    cases l with
    | nil => simp
    | cons c cs => simp; omega
  | some n =>
    have hlt := List.sizeOf_lt_of_mem (mapGet_mem h)
    simp
    omega

mutual

/-- Body of the source `diffChildren` loop for one key of the union: at most
one diff node is pushed per key, per the removed/added/changed branches. -/
def processNodes (k : String) : Option Child → Option Child → List DiffNode
  | some nA, none =>
    [.mk .removed nA.kind k none none]
  | none, some (.file _ s) =>
    [.mk .added .File k (some (addedStats s)) none]
  | none, some (.dir _ s cs) =>
    let children := diffAux [] cs (allKeys [] cs)
    [.mk .added .Directory k (some (addedStats s))
      (if children.isEmpty then none else some children)]
  | some (.file _ sA), some (.file _ sB) =>
    match statsDiff sA sB with
    | some ds => [.mk .changed .File k (some ds) none]
    | none => []
  | some (.dir _ sA csA), some (.dir _ sB csB) =>
    let stats := statsDiff sA sB
    let children := diffAux csA csB (allKeys csA csB)
    if stats.isSome || !children.isEmpty then
      [.mk .changed .Directory k stats (some children)]
    else []
  | some (.file _ _), some (.dir _ _ _) => []
  | some (.dir _ _ _), some (.file _ _) => []
  | none, none => []
termination_by oa ob => (sizeOf oa + sizeOf ob, 0)
decreasing_by
  all_goals simp_wf
  all_goals apply Prod.Lex.left
  all_goals omega

/-- Source `diffChildren`'s iteration over the key set, with the two input
children lists fixed; concatenates the nodes pushed for each key in key
order. -/
def diffAux (a b : List Child) : List String → List DiffNode
  | [] => []
  | k :: rest => processNodes k (mapGet a k) (mapGet b k) ++ diffAux a b rest
termination_by keys => (sizeOf a + sizeOf b + 1, keys.length)
decreasing_by
  all_goals simp_wf
  all_goals
    first
    | (apply Prod.Lex.right
       simp)
    | (apply Prod.Lex.left
       have h1 := sizeOf_mapGet_le a k
       have h2 := sizeOf_mapGet_le b k
       omega)

end

/-- Source `diffChildren`. -/
def diffChildren (aChildren bChildren : List Child) : List DiffNode :=
  diffAux aChildren bChildren (allKeys aChildren bChildren)

/-- Source `diff`: root stats delta plus the root children's diff. -/
def diff (before after : Report) : DiffRoot :=
  { stats := statsDiff before.root.stats after.root.stats
    children := diffChildren before.root.children after.root.children }

/-! ## Basic lemmas about the differ -/

theorem statsDiff_self (s : Stats) : statsDiff s s = none := by
  simp [statsDiff]

theorem diffAux_self (n : ℕ) :
    ∀ c : List Child, sizeOf c ≤ n → ∀ keys, diffAux c c keys = [] := by
  induction n with
  | zero =>
    intro c hc
    exact absurd hc (by cases c <;> simp)
  | succ n ih =>
    intro c hc keys
    induction keys with
    | nil => simp [diffAux]
    | cons k rest ihk =>
      simp only [diffAux, ihk, List.append_nil]
      cases h : mapGet c k with
      | none => simp [processNodes]
      | some m =>
        cases m with
        | file p s => simp [processNodes, statsDiff_self]
        | dir p s cs =>
          have hmem := List.sizeOf_lt_of_mem (mapGet_mem h)
          have hcs : sizeOf cs ≤ n := by simp at hmem; omega
          simp [processNodes, statsDiff_self, ih cs hcs]

theorem diffChildren_self (c : List Child) : diffChildren c c = [] :=
  diffAux_self (sizeOf c) c le_rfl (allKeys c c)

/-! ## Membership structure of `diffChildren` -/

theorem processNodes_path {k : String} {oa ob : Option Child} {d : DiffNode}
    (h : d ∈ processNodes k oa ob) : d.path = k := by
  rcases oa with _ | nA <;> rcases ob with _ | nB
  · simp [processNodes] at h
  · rcases nB with p | ⟨p, s, cs⟩ <;>
      · simp [processNodes] at h
        subst h
        rfl
  · simp [processNodes] at h
    subst h
    rfl
  · rcases nA with ⟨pA, sA⟩ | ⟨pA, sA, csA⟩ <;> rcases nB with ⟨pB, sB⟩ | ⟨pB, sB, csB⟩
    · rcases h2 : statsDiff sA sB with _ | ds <;> simp [processNodes, h2] at h
      subst h
      rfl
    · simp [processNodes] at h
    · simp [processNodes] at h
    · simp only [processNodes] at h
      split at h <;> simp at h
      subst h
      rfl

theorem mem_diffAux {a b : List Child} {keys : List String} {d : DiffNode} :
    d ∈ diffAux a b keys ↔
      ∃ k ∈ keys, d ∈ processNodes k (mapGet a k) (mapGet b k) := by
  induction keys with
  | nil => simp [diffAux]
  | cons k rest ih => simp [diffAux, ih]

theorem mem_keysAux (l : List String) :
    ∀ acc x, x ∈ keysAux acc l ↔ x ∈ acc ∨ x ∈ l := by
  induction l with
  | nil => intro acc x; simp [keysAux]
  | cons k ks ih =>
    intro acc x
    rw [keysAux]
    by_cases h : acc.contains k
    · rw [if_pos h, ih]
      have hk : k ∈ acc := by simpa using h
      constructor
      · rintro (hx | hx)
        · exact Or.inl hx
        · exact Or.inr (List.mem_cons_of_mem _ hx)
      · rintro (hx | hx)
        · exact Or.inl hx
        · rcases List.mem_cons.mp hx with rfl | hx
          · exact Or.inl hk
          · exact Or.inr hx
    · rw [if_neg h, ih]
      simp only [List.mem_append, List.mem_singleton, List.mem_cons]
      tauto

theorem nodup_keysAux (l : List String) :
    ∀ acc : List String, acc.Nodup → (keysAux acc l).Nodup := by
  induction l with
  | nil => intro acc h; simpa [keysAux]
  | cons k ks ih =>
    intro acc h
    rw [keysAux]
    apply ih
    by_cases hk : acc.contains k
    · rwa [if_pos hk]
    · rw [if_neg hk]
      have hnk : k ∉ acc := by simpa using hk
      simp [List.nodup_append, h, hnk]

theorem mem_allKeys {a b : List Child} {k : String} :
    k ∈ allKeys a b ↔ k ∈ relKeys a ∨ k ∈ relKeys b := by
  simp [allKeys, mem_keysAux]

theorem nodup_allKeys (a b : List Child) : (allKeys a b).Nodup :=
  nodup_keysAux _ _ List.nodup_nil

theorem mapGet_eq_none_iff {l : List Child} {k : String} :
    mapGet l k = none ↔ k ∉ relKeys l := by
  unfold mapGet relKeys
  rw [List.find?_eq_none]
  simp [List.mem_map]

theorem mapGet_exists_of_mem_relKeys {l : List Child} {k : String}
    (h : k ∈ relKeys l) : ∃ n, mapGet l k = some n := by
  cases hm : mapGet l k with
  | none => exact absurd (mapGet_eq_none_iff.mp hm) (not_not.mpr h)
  | some n => exact ⟨n, rfl⟩

theorem mem_relKeys_of_mapGet {l : List Child} {k : String} {n : Child}
    (h : mapGet l k = some n) : k ∈ relKeys l := by
  by_contra hk
  rw [← mapGet_eq_none_iff] at hk
  simp [h] at hk

theorem exists_mem_diffChildren_iff {a b : List Child} {k : String} :
    (∃ d ∈ diffChildren a b, d.path = k) ↔
      (k ∈ allKeys a b ∧ processNodes k (mapGet a k) (mapGet b k) ≠ []) := by
  unfold diffChildren
  constructor
  · rintro ⟨d, hd, hpath⟩
    obtain ⟨k', hk', hmem⟩ := mem_diffAux.mp hd
    have : d.path = k' := processNodes_path hmem
    rw [this] at hpath
    subst hpath
    exact ⟨hk', fun he => by simp [he] at hmem⟩
  · rintro ⟨hk, hne⟩
    obtain ⟨d, hd⟩ := List.exists_mem_of_ne_nil _ hne
    exact ⟨d, mem_diffAux.mpr ⟨k, hk, hd⟩, processNodes_path hd⟩

/-! ## Claim theorems about the differ -/

/-- C1: for every report tree `T`, `diff T T` yields an empty diff — the root
stats delta is absent and the children diff collection is empty; since the
child diff is the empty list, no `DiffNode` is produced anywhere,
recursively. -/
theorem diff_self_empty (T : Report) :
    diff T T = { stats := none, children := [] } := by
  simp [diff, statsDiff_self, diffChildren_self]

theorem filter_diffAux {a b : List Child} {keys : List String} {k : String}
    (hnd : keys.Nodup) (hk : k ∈ keys) :
    (diffAux a b keys).filter (fun d => d.path == k) =
      processNodes k (mapGet a k) (mapGet b k) := by
  induction keys with
  | nil => cases hk
  | cons k' rest ih =>
    simp only [diffAux, List.filter_append]
    rcases List.mem_cons.mp hk with rfl | hmem
    · have h1 : (processNodes k (mapGet a k) (mapGet b k)).filter
          (fun d => d.path == k) = processNodes k (mapGet a k) (mapGet b k) :=
        List.filter_eq_self.mpr (fun d hd => by simp [processNodes_path hd])
      have hknotin : k ∉ rest := (List.nodup_cons.mp hnd).1
      have h2 : (diffAux a b rest).filter (fun d => d.path == k) = [] := by
        rw [List.filter_eq_nil_iff]
        intro d hd
        obtain ⟨k2, hk2, hmem2⟩ := mem_diffAux.mp hd
        have : d.path = k2 := processNodes_path hmem2
        simp [this]
        exact fun e => hknotin (e ▸ hk2)
      rw [h1, h2, List.append_nil]
    · have hne : k ≠ k' := by
        rintro rfl
        exact (List.nodup_cons.mp hnd).1 hmem
      have h1 : (processNodes k' (mapGet a k') (mapGet b k')).filter
          (fun d => d.path == k) = [] := by
        rw [List.filter_eq_nil_iff]
        intro d hd
        simp [processNodes_path hd]
        exact fun e => hne e.symm
      rw [h1, ih (List.nodup_cons.mp hnd).2 hmem, List.nil_append]

/-- C3: a relative path present only in the `after` children yields exactly
one `added` diff node for that path; for a file its own statistics are
attached as deltas from the all-zero baseline with no children, for a
directory its statistics are attached as deltas from zero and every
descendant key receives its own recursively `added` diff node, obtained by
diffing against the empty children collection. -/
theorem diffChildren_added_spec (a b : List Child) (k : String) (n : Child)
    (ha : mapGet a k = none) (hb : mapGet b k = some n) :
    (∀ p s, n = Child.file p s →
      (diffChildren a b).filter (fun d => d.path == k) =
        [DiffNode.mk .added .File k (some (addedStats s)) none]) ∧
    (∀ p s cs, n = Child.dir p s cs →
      (diffChildren a b).filter (fun d => d.path == k) =
        [DiffNode.mk .added .Directory k (some (addedStats s))
          (if (diffChildren [] cs).isEmpty then none
           else some (diffChildren [] cs))] ∧
      ∀ k', k' ∈ relKeys cs →
        ∃ d ∈ diffChildren [] cs, d.path = k' ∧ d.type = .added) := by
  have hkall : k ∈ allKeys a b :=
    mem_allKeys.mpr (Or.inr (mem_relKeys_of_mapGet hb))
  have hfilter : (diffChildren a b).filter (fun d => d.path == k) =
      processNodes k (mapGet a k) (mapGet b k) := by
    unfold diffChildren
    exact filter_diffAux (nodup_allKeys a b) hkall
  rw [ha, hb] at hfilter
  constructor
  · rintro p s rfl
    rw [hfilter]
    simp [processNodes]
  · rintro p s cs rfl
    constructor
    · rw [hfilter]
      simp only [processNodes]
      rfl
    · intro k' hk'
      obtain ⟨m, hm⟩ := mapGet_exists_of_mem_relKeys hk'
      have hk'all : k' ∈ allKeys [] cs := mem_allKeys.mpr (Or.inr hk')
      have hnone : mapGet [] k' = none := rfl
      have hblock : ∃ d ∈ processNodes k' (mapGet [] k') (mapGet cs k'),
          d.path = k' ∧ d.type = .added := by
        rw [hnone, hm]
        cases m with
        | file pm sm =>
          exact ⟨DiffNode.mk .added .File k' (some (addedStats sm)) none,
            by simp [processNodes], rfl, rfl⟩
        | dir pm sm csm =>
          refine ⟨DiffNode.mk .added .Directory k' (some (addedStats sm))
            (if (diffAux [] csm (allKeys [] csm)).isEmpty then none
             else some (diffAux [] csm (allKeys [] csm))), ?_, rfl, rfl⟩
          simp [processNodes]
      obtain ⟨d, hd, hdp, hdt⟩ := hblock
      exact ⟨d, by unfold diffChildren; exact mem_diffAux.mpr ⟨k', hk'all, hd⟩,
        hdp, hdt⟩

/-- Witness for C3 at a concrete input: a single file added on the `after`
side. -/
theorem diffChildren_added_spec_witness :
    (mapGet [] "q" = none ∧
     mapGet [Child.file ⟨"/r/q", "q"⟩ ⟨50, 10, 5, none, none, none, none,
       none, none, none, none, none, none, none, none⟩] "q" =
       some (Child.file ⟨"/r/q", "q"⟩ ⟨50, 10, 5, none, none, none, none,
         none, none, none, none, none, none, none, none⟩)) ∧
    (∀ p s, Child.file ⟨"/r/q", "q"⟩ ⟨50, 10, 5, none, none, none, none,
        none, none, none, none, none, none, none, none⟩ = Child.file p s →
      (diffChildren [] [Child.file ⟨"/r/q", "q"⟩ ⟨50, 10, 5, none, none,
        none, none, none, none, none, none, none, none, none, none⟩]).filter
          (fun d => d.path == "q") =
        [DiffNode.mk .added .File "q" (some (addedStats s)) none]) := by
  have h2 : mapGet [Child.file ⟨"/r/q", "q"⟩ ⟨50, 10, 5, none, none, none,
      none, none, none, none, none, none, none, none, none⟩] "q" =
      some (Child.file ⟨"/r/q", "q"⟩ ⟨50, 10, 5, none, none, none, none,
        none, none, none, none, none, none, none, none⟩) := rfl
  exact ⟨⟨rfl, h2⟩, (diffChildren_added_spec [] _ "q" _ rfl h2).1⟩

/-- C10: a relative path present in both children collections with different
node kinds (file on one side, directory on the other) produces no diff node
at all: the collision is silently dropped. -/
theorem diffChildren_mixed_kind_dropped (a b : List Child) (k : String)
    (nA nB : Child) (ha : mapGet a k = some nA) (hb : mapGet b k = some nB)
    (hk : nA.kind ≠ nB.kind) :
    ∀ d ∈ diffChildren a b, d.path ≠ k := by
  intro d hd hpath
  obtain ⟨k', hk', hmem⟩ := mem_diffAux.mp (by
    unfold diffChildren at hd
    exact hd)
  have hp : d.path = k' := processNodes_path hmem
  rw [hp] at hpath
  subst hpath
  rw [ha, hb] at hmem
  cases nA with
  | file pA sA =>
    cases nB with
    | file pB sB => exact hk rfl
    | dir pB sB csB => simp [processNodes] at hmem
  | dir pA sA csA =>
    cases nB with
    | file pB sB => simp [processNodes] at hmem
    | dir pB sB csB => exact hk rfl

/-- Witness for C10 at a concrete input: `"p"` is a file before and a
directory after; the diff of those children lists contains no node for
`"p"`. -/
theorem diffChildren_mixed_kind_dropped_witness :
    mapGet [Child.file ⟨"/r/p", "p"⟩ ⟨50, 10, 5, none, none, none, none,
      none, none, none, none, none, none, none, none⟩] "p" =
      some (Child.file ⟨"/r/p", "p"⟩ ⟨50, 10, 5, none, none, none, none,
        none, none, none, none, none, none, none, none⟩) ∧
    mapGet [Child.dir ⟨"/r/p", "p"⟩ ⟨50, 10, 5, none, none, none, none,
      none, none, none, none, none, none, none, none⟩ []] "p" =
      some (Child.dir ⟨"/r/p", "p"⟩ ⟨50, 10, 5, none, none, none, none,
        none, none, none, none, none, none, none, none⟩ []) ∧
    ∀ d ∈ diffChildren
      [Child.file ⟨"/r/p", "p"⟩ ⟨50, 10, 5, none, none, none, none, none,
        none, none, none, none, none, none, none⟩]
      [Child.dir ⟨"/r/p", "p"⟩ ⟨50, 10, 5, none, none, none, none, none,
        none, none, none, none, none, none, none⟩ []], d.path ≠ "p" := by
  refine ⟨rfl, rfl, ?_⟩
  exact diffChildren_mixed_kind_dropped _ _ "p" _ _ rfl rfl (by simp [Child.kind])

/-- C4: when both sides' coverage percentages come from the same percentage
string (hence are the same rational), the coverage delta computed by
`statsDiff` — an exact rational subtraction, as `fraction.js` performs — is
exactly zero: either no delta object is produced at all, or its
`CoverageDelta` field is exactly `0`. -/
theorem coverage_delta_exact (s : String) (q : ℚ) (a b : Stats)
    (hs : parseCoverage s = some q) (ha : a.Coverage = q)
    (hb : b.Coverage = q) :
    b.Coverage - a.Coverage = 0 ∧
    ∀ ds, statsDiff a b = some ds → ds.CoverageDelta = some 0 := by
  have h0 : b.Coverage - a.Coverage = 0 := by rw [ha, hb, sub_self]
  refine ⟨h0, ?_⟩
  intro ds hds
  simp only [statsDiff] at hds
  split at hds
  · rw [Option.some_inj] at hds
    rw [← hds]
    simp [h0]
  · exact absurd hds (by simp)

/-- Witness for C4 at the spec's own example: both sides' coverage was parsed
from the same string `"85.7 %"` (the parsed value is referred to as
`(parseCoverage "85.7 %").getD 0`, which the parse indeed returns). -/
theorem coverage_delta_exact_witness :
    parseCoverage "85.7 %" = some ((parseCoverage "85.7 %").getD 0) ∧
    (((parseCoverage "85.7 %").getD 0) - ((parseCoverage "85.7 %").getD 0) = 0 ∧
     ∀ ds, statsDiff
        ⟨(parseCoverage "85.7 %").getD 0, 10, 5, none, none, none, none,
          none, none, none, none, none, none, none, none⟩
        ⟨(parseCoverage "85.7 %").getD 0, 12, 5, none, none, none, none,
          none, none, none, none, none, none, none, none⟩ = some ds →
       ds.CoverageDelta = some 0) := by
  have hs : parseCoverage "85.7 %" = some ((parseCoverage "85.7 %").getD 0) := rfl
  exact ⟨hs, coverage_delta_exact "85.7 %" ((parseCoverage "85.7 %").getD 0)
    ⟨(parseCoverage "85.7 %").getD 0, 10, 5, none, none, none, none, none,
      none, none, none, none, none, none, none⟩
    ⟨(parseCoverage "85.7 %").getD 0, 12, 5, none, none, none, none, none,
      none, none, none, none, none, none, none⟩ hs rfl rfl⟩

/-- C2 (amended): a diff node is emitted for a key `k` exactly when `k` is
present on exactly one side, or present on both sides with the same kind and
a change visible to the differ — for two files a non-empty `statsDiff`, for
two directories a non-empty `statsDiff` or a non-empty recursive child diff;
a key present on both sides with differing kinds yields no diff node.
Moreover `statsDiff` ignores the optional categories: statistics agreeing on
`Coverage`/`Total`/`Hit` produce no delta even if an optional category such
as `UNC` differs. -/
theorem diffNode_emitted_iff :
    (∀ (a b : List Child) (k : String),
      (∃ d ∈ diffChildren a b, d.path = k) ↔
        ((k ∈ relKeys a ∧ k ∉ relKeys b) ∨
         (k ∉ relKeys a ∧ k ∈ relKeys b) ∨
         (∃ pA sA pB sB, mapGet a k = some (Child.file pA sA) ∧
            mapGet b k = some (Child.file pB sB) ∧ statsDiff sA sB ≠ none) ∨
         (∃ pA sA csA pB sB csB, mapGet a k = some (Child.dir pA sA csA) ∧
            mapGet b k = some (Child.dir pB sB csB) ∧
            (statsDiff sA sB ≠ none ∨ diffChildren csA csB ≠ [])))) ∧
    (∀ sA sB : Stats, sA.Coverage = sB.Coverage → sA.Total = sB.Total →
      sA.Hit = sB.Hit → statsDiff sA sB = none) := by
  constructor
  · intro a b k
    rw [exists_mem_diffChildren_iff]
    cases ha : mapGet a k with
    | none =>
      have hka : k ∉ relKeys a := mapGet_eq_none_iff.mp ha
      cases hb : mapGet b k with
      | none =>
        have hkb : k ∉ relKeys b := mapGet_eq_none_iff.mp hb
        simp [processNodes, hka, hkb]
      | some nB =>
        have hkb : k ∈ relKeys b := mem_relKeys_of_mapGet hb
        have hkall : k ∈ allKeys a b := mem_allKeys.mpr (Or.inr hkb)
        cases nB with
        | file p s => simp [processNodes, hka, hkb, hkall]
        | dir p s cs => simp [processNodes, hka, hkb, hkall]
    | some nA =>
      have hka : k ∈ relKeys a := mem_relKeys_of_mapGet ha
      have hkall : k ∈ allKeys a b := mem_allKeys.mpr (Or.inl hka)
      cases hb : mapGet b k with
      | none =>
        have hkb : k ∉ relKeys b := mapGet_eq_none_iff.mp hb
        simp [processNodes, hka, hkb, hkall]
      | some nB =>
        have hkb : k ∈ relKeys b := mem_relKeys_of_mapGet hb
        cases nA with
        | file pA sA =>
          cases nB with
          | file pB sB =>
            rcases hsd : statsDiff sA sB with _ | ds
            · simp [processNodes, hsd, hka, hkb]
            · simp only [processNodes, hsd]
              constructor
              · intro _
                refine Or.inr (Or.inr (Or.inl ⟨pA, sA, pB, sB, rfl, rfl, ?_⟩))
                simp [hsd]
              · intro _
                refine ⟨hkall, ?_⟩
                simp
          | dir pB sB csB => simp [processNodes, hka, hkb]
        | dir pA sA csA =>
          cases nB with
          | file pB sB => simp [processNodes, hka, hkb]
          | dir pB sB csB =>
            have hdc : diffChildren csA csB =
                diffAux csA csB (allKeys csA csB) := rfl
            have hiff : (((statsDiff sA sB).isSome ||
                !(diffAux csA csB (allKeys csA csB)).isEmpty) = true) ↔
                (statsDiff sA sB ≠ none ∨ diffChildren csA csB ≠ []) := by
              rw [hdc]
              simp [Option.ne_none_iff_isSome]
            simp only [processNodes]
            by_cases hcond : ((statsDiff sA sB).isSome ||
                !(diffAux csA csB (allKeys csA csB)).isEmpty) = true
            · rw [if_pos hcond]
              constructor
              · intro _
                exact Or.inr (Or.inr (Or.inr ⟨pA, sA, csA, pB, sB, csB, rfl,
                  rfl, hiff.mp hcond⟩))
              · intro _
                exact ⟨hkall, by simp⟩
            · rw [if_neg hcond]
              have hno : statsDiff sA sB = none ∧ diffChildren csA csB = [] := by
                have h : ¬(statsDiff sA sB ≠ none ∨ diffChildren csA csB ≠ []) :=
                  fun hc => hcond (hiff.mpr hc)
                push_neg at h
                exact h
              constructor
              · rintro ⟨-, hne⟩
                exact absurd rfl hne
              · rintro (⟨-, hx⟩ | ⟨hx, -⟩ | ⟨p1, s1, p2, s2, hx, -, -⟩ |
                  ⟨p1, s1, cs1, p2, s2, cs2, hx, hy, hz⟩)
                · exact absurd hkb hx
                · exact absurd hka hx
                · exact absurd hx (by simp)
                · obtain ⟨h3, h4, h5⟩ : pA = p1 ∧ sA = s1 ∧ csA = cs1 := by
                    simpa using hx
                  obtain ⟨h6, h7, h8⟩ : pB = p2 ∧ sB = s2 ∧ csB = cs2 := by
                    simpa using hy
                  subst h3; subst h4; subst h5; subst h6; subst h7; subst h8
                  rcases hz with hz | hz
                  · exact (hz hno.1).elim
                  · exact (hz hno.2).elim
  · intro sA sB h1 h2 h3
    simp [statsDiff, h1, h2, h3]

/-- Counterexample to C2 as stated: the path `"p"` is a file in the `before`
children and a directory in the `after` children — its kind differs between
the two sides — yet the diff is empty, no diff node is emitted for it. -/
theorem diffNode_emitted_iff_counterexample :
    mapGet [Child.file ⟨"/r/p", "p"⟩ ⟨50, 10, 5, none, none, none, none,
      none, none, none, none, none, none, none, none⟩] "p" =
      some (Child.file ⟨"/r/p", "p"⟩ ⟨50, 10, 5, none, none, none, none,
        none, none, none, none, none, none, none, none⟩) ∧
    mapGet [Child.dir ⟨"/r/p", "p"⟩ ⟨50, 10, 5, none, none, none, none,
      none, none, none, none, none, none, none, none⟩ []] "p" =
      some (Child.dir ⟨"/r/p", "p"⟩ ⟨50, 10, 5, none, none, none, none,
        none, none, none, none, none, none, none, none⟩ []) ∧
    (Child.file ⟨"/r/p", "p"⟩ ⟨50, 10, 5, none, none, none, none, none,
      none, none, none, none, none, none, none⟩).kind ≠
      (Child.dir ⟨"/r/p", "p"⟩ ⟨50, 10, 5, none, none, none, none, none,
        none, none, none, none, none, none, none⟩ []).kind ∧
    diffChildren
      [Child.file ⟨"/r/p", "p"⟩ ⟨50, 10, 5, none, none, none, none, none,
        none, none, none, none, none, none, none⟩]
      [Child.dir ⟨"/r/p", "p"⟩ ⟨50, 10, 5, none, none, none, none, none,
        none, none, none, none, none, none, none⟩ []] = [] := by
  refine ⟨rfl, rfl, by simp [Child.kind], ?_⟩
  have hkeys : allKeys
      [Child.file ⟨"/r/p", "p"⟩ ⟨50, 10, 5, none, none, none, none, none,
        none, none, none, none, none, none, none⟩]
      [Child.dir ⟨"/r/p", "p"⟩ ⟨50, 10, 5, none, none, none, none, none,
        none, none, none, none, none, none, none⟩ []] = ["p"] := rfl
  unfold diffChildren
  rw [hkeys]
  simp [diffAux, processNodes, mapGet, Child.rel]

/-- Witness for C2 (amended), exercising the optional-category conjunct: two
statistics agreeing on `Coverage`/`Total`/`Hit` but differing in `UNC` yield
no delta. -/
theorem diffNode_emitted_iff_witness :
    statsDiff
      ⟨50, 10, 5, some 1, none, none, none, none, none, none, none, none,
        none, none, none⟩
      ⟨50, 10, 5, some 2, none, none, none, none, none, none, none, none,
        none, none, none⟩ = none :=
  diffNode_emitted_iff.2
    ⟨50, 10, 5, some 1, none, none, none, none, none, none, none, none,
      none, none, none⟩
    ⟨50, 10, 5, some 2, none, none, none, none, none, none, none, none,
      none, none, none⟩ rfl rfl rfl

/-! ## The parser's document model (`src/parser.ts`, fullest variant) -/

/-- The `GenhtmlReportStats` object as `parseStats` builds it key by key:
an association list with JavaScript object semantics (header texts are the
keys, in insertion order); a value of `none` models `parseFloat`'s NaN. -/
abbrev Summary := List (String × Option ℚ)

/-- JavaScript object property write: updating an existing key keeps its
position, a new key is appended. -/
def objSet (o : Summary) (k : String) (v : Option ℚ) : Summary :=
  if o.any (fun p => p.1 == k) then
    o.map (fun p => if p.1 == k then (k, v) else p)
  else o ++ [(k, v)]

/-- JavaScript object property read. -/
def objGet (o : Summary) (k : String) : Option (Option ℚ) :=
  (o.find? (fun p => p.1 == k)).map Prod.snd

/-- One listing-table row as the source queries it: the text content of its
`td.coverDirectory` and `td.coverFile` cells when present, of the first
`coverPerHi`/`coverPerMed`/`coverPerLo` cell when present, and of the `td`
cells from the 4th column onward (`td:nth-child(n+4)`). -/
structure Row where
  coverDirectory : Option String
  coverFile : Option String
  coverPer : Option String
  numbers : List String
deriving DecidableEq, Repr

/-- One report document as the source queries it: the summary header and
value cell texts, the table-kind cell text, and the listing rows. -/
structure Doc where
  summaryHeaders : List String
  summaryValues : List String
  tableTypeText : Option String
  rows : List Row
deriving DecidableEq, Repr

/-- Source `tableType`: the trimmed text of the fixed-position cell decides
`"Directory"`/`"File"`; anything else, or a missing cell, is `undefined`. -/
def tableType (d : Doc) : Option NodeKind :=
  match d.tableTypeText with
  | none => none
  | some t =>
    if trimS t = "Directory" then some .Directory
    else if trimS t = "File" then some .File
    else none

/-- The `forEach` loop of source `parseStats`: assign
`summary[header.trim()] = parseCoverage(values[index].trim())`; accessing a
missing value cell (`values[index].textContent`) throws. -/
def summGo (values : List String) : List String → Nat → Summary → Res Summary
  | [], _, acc => .value acc
  | h :: hs, i, acc =>
    match values[i]? with
    | none => .thrown
    | some v =>
      summGo values hs (i + 1) (objSet acc (trimS h) (parseCoverage (trimS v)))

/-- Source `parseStats`: absent (`none`) when the summary header cells or
value cells are empty, otherwise the summary object built from them. -/
def parseStats (d : Doc) : Res (Option Summary) :=
  if d.summaryHeaders.isEmpty || d.summaryValues.isEmpty then .value none
  else Res.map some (summGo d.summaryValues d.summaryHeaders 0 [])

/-- One parsed listing entry (element of the source `parseEntries` result). -/
structure Entry where
  path : String
  type : Option NodeKind
  stats : Summary
deriving DecidableEq, Repr

/-- The `keys.forEach` loop of source `parseEntries`: consume the numeric
cells from the 4th column on, one per remaining category; an empty cell text
defaults to `"0"`, while a missing cell (`numbers[index].textContent`)
throws. -/
def statsGo (numbers : List String) : List String → Nat → Summary → Res Summary
  | [], _, st => .value st
  | key :: ks, i, st =>
    match numbers[i]? with
    | none => .thrown
    | some cell =>
      let value := if trimS cell = "" then "0" else trimS cell
      statsGo numbers ks (i + 1) (objSet st key (parseCoverage value))

/-- Row callback of source `parseEntries` (fullest variant, which skips a row
lacking its name cell): no entry for such a row, otherwise one entry whose
stats start from `{Coverage, Total: 0, Hit: 0}` and take the numeric columns
per category. -/
def rowParse (tt : Option NodeKind) (keys : List String) (r : Row) :
    Res (List Entry) :=
  let directoryOrFile :=
    if tt = some NodeKind.Directory then r.coverDirectory else r.coverFile
  match directoryOrFile with
  | none => .value []
  | some nameText =>
    let path := trimS nameText
    match r.coverPer with
    | none => .thrown
    | some cov =>
      let coverage := parseCoverage (trimS cov)
      match statsGo r.numbers keys 0
          [("Coverage", coverage), ("Total", some 0), ("Hit", some 0)] with
      | .thrown => .thrown
      | .value stats => .value [{ path := path, type := tt, stats := stats }]

/-- The `flatMap` of source `parseEntries` over the listing rows. -/
def rowsGo (tt : Option NodeKind) (keys : List String) : List Row → Res (List Entry)
  | [] => .value []
  | r :: rs =>
    match rowParse tt keys r with
    | .thrown => .thrown
    | .value es =>
      match rowsGo tt keys rs with
      | .thrown => .thrown
      | .value rest => .value (es ++ rest)

/-- Source `parseEntries`: the column schema is
`Object.keys(parseStats(document) || {})` minus `"Coverage"`; each listing
row yields zero or one entry. -/
def parseEntries (d : Doc) : Res (List Entry) :=
  match parseStats d with
  | .thrown => .thrown
  | .value os =>
    let keys := (match os with
      | none => []
      | some s => s.map Prod.fst).filter (fun k => k ≠ "Coverage")
    rowsGo (tableType d) keys d.rows

/-! ## Claim theorems about the row/summary extractors -/

theorem parseStats_rows (d : Doc) (rs : List Row) :
    parseStats { d with rows := rs } = parseStats d := rfl

theorem tableType_rows (d : Doc) (rs : List Row) :
    tableType { d with rows := rs } = tableType d := rfl

/-- C6: a listing row lacking its expected name cell (`coverDirectory` for a
Directory table, `coverFile` otherwise) is skipped entirely and produces no
record and no error: extraction over the rows with that row inserted is
identical to extraction without it, so the remaining rows are unaffected. -/
theorem parseEntries_skips_nameless (d : Doc) (rs1 rs2 : List Row) (r : Row)
    (h : (if tableType d = some NodeKind.Directory then r.coverDirectory
          else r.coverFile) = none) :
    parseEntries { d with rows := rs1 ++ r :: rs2 } =
      parseEntries { d with rows := rs1 ++ rs2 } := by
  unfold parseEntries
  simp only [parseStats_rows, tableType_rows]
  cases parseStats d with
  | thrown => rfl
  | value os =>
    simp only []
    induction rs1 with
    | nil =>
      simp only [List.nil_append, rowsGo]
      have hr : rowParse (tableType d)
          ((match os with
            | none => []
            | some s => s.map Prod.fst).filter (fun k => k ≠ "Coverage")) r =
          .value [] := by
        unfold rowParse
        rw [h]
      rw [hr]
      cases rowsGo (tableType d)
          ((match os with
            | none => []
            | some s => s.map Prod.fst).filter (fun k => k ≠ "Coverage")) rs2 <;>
        simp
    | cons r2 rs1 ih =>
      simp only [List.cons_append, rowsGo, List.append_eq] at ih ⊢
      rw [ih]

/-- Witness for C6 at a concrete input: a Directory table with one proper row
and one footer row lacking `td.coverDirectory`. -/
theorem parseEntries_skips_nameless_witness :
    (if tableType (Doc.mk ["Coverage", "Total", "Hit"] ["50 %", "10", "5"]
          (some "Directory") []) = some NodeKind.Directory
     then (Row.mk none none none []).coverDirectory
     else (Row.mk none none none []).coverFile) = none ∧
    parseEntries { Doc.mk ["Coverage", "Total", "Hit"] ["50 %", "10", "5"]
        (some "Directory") [] with
      rows := [Row.mk (some "sub") none (some "50 %") ["10", "5"]] ++
        Row.mk none none none [] ::
        [Row.mk (some "other") none (some "50 %") ["10", "5"]] } =
      parseEntries { Doc.mk ["Coverage", "Total", "Hit"] ["50 %", "10", "5"]
          (some "Directory") [] with
        rows := [Row.mk (some "sub") none (some "50 %") ["10", "5"]] ++
          [Row.mk (some "other") none (some "50 %") ["10", "5"]] } :=
  ⟨rfl, parseEntries_skips_nameless _ _ _ _ rfl⟩

theorem objGet_map_update (o : Summary) (k : String) (v : Option ℚ)
    (h : o.any (fun p => p.1 == k) = true) :
    objGet (o.map (fun p => if p.1 == k then (k, v) else p)) k = some v := by
  induction o with
  | nil => simp at h
  | cons p o2 ih =>
    by_cases hp : (p.1 == k) = true
    · simp only [objGet, List.map_cons, if_pos hp]
      rw [List.find?_cons_of_pos (p := fun q : String × Option ℚ => q.1 == k) _ (by simp)]
      rfl
    · have h2 : o2.any (fun p => p.1 == k) = true := by
        simpa [List.any_cons, hp] using h
      have := ih h2
      simp only [objGet] at this ⊢
      simp only [List.map_cons, if_neg hp]
      rw [List.find?_cons_of_neg (p := fun q : String × Option ℚ => q.1 == k) _ hp]
      exact this

theorem objGet_map_update_ne (o : Summary) (k k2 : String) (v : Option ℚ)
    (hne : k2 ≠ k) :
    objGet (o.map (fun p => if p.1 == k then (k, v) else p)) k2 = objGet o k2 := by
  induction o with
  | nil => rfl
  | cons p o2 ih =>
    simp only [objGet] at ih ⊢
    simp only [List.map_cons]
    by_cases hp : (p.1 == k) = true
    · have hpk : p.1 = k := by simpa using hp
      rw [if_pos hp,
        List.find?_cons_of_neg (p := fun q : String × Option ℚ => q.1 == k2) _
          (by simpa using Ne.symm hne),
        List.find?_cons_of_neg (p := fun q : String × Option ℚ => q.1 == k2) _
          (by simp [hpk]; exact Ne.symm hne)]
      exact ih
    · rw [if_neg hp]
      by_cases hq : (p.1 == k2) = true
      · rw [List.find?_cons_of_pos (p := fun q : String × Option ℚ => q.1 == k2) _ hq,
          List.find?_cons_of_pos (p := fun q : String × Option ℚ => q.1 == k2) _ hq]
      · rw [List.find?_cons_of_neg (p := fun q : String × Option ℚ => q.1 == k2) _ hq,
          List.find?_cons_of_neg (p := fun q : String × Option ℚ => q.1 == k2) _ hq]
        exact ih

theorem objGet_objSet_self (o : Summary) (k : String) (v : Option ℚ) :
    objGet (objSet o k v) k = some v := by
  unfold objSet
  by_cases h : o.any (fun p => p.1 == k)
  · rw [if_pos h]
    exact objGet_map_update o k v h
  · rw [if_neg h]
    have hnone : o.find? (fun p => p.1 == k) = none := by
      rw [List.find?_eq_none]
      intro p hp hcontra
      exact h (List.any_eq_true.mpr ⟨p, hp, hcontra⟩)
    unfold objGet
    rw [List.find?_append, hnone]
    simp

theorem objGet_objSet_ne (o : Summary) (k k2 : String) (v : Option ℚ)
    (hne : k2 ≠ k) :
    objGet (objSet o k v) k2 = objGet o k2 := by
  unfold objSet
  by_cases h : o.any (fun p => p.1 == k)
  · rw [if_pos h]
    exact objGet_map_update_ne o k k2 v hne
  · rw [if_neg h]
    unfold objGet
    rw [List.find?_append]
    have hsingle : List.find? (fun p => p.1 == k2) [(k, v)] = none := by
      rw [List.find?_cons_of_neg (p := fun q : String × Option ℚ => q.1 == k2) _
        (by simpa using Ne.symm hne)]
      rfl
    rw [hsingle]
    cases o.find? (fun p => p.1 == k2) <;> rfl

theorem statsGo_spec (numbers : List String) :
    ∀ (ks : List String) (i : Nat) (st : Summary),
      ks.Nodup → i + ks.length ≤ numbers.length →
      ∃ st2, statsGo numbers ks i st = .value st2 ∧
        (∀ k, k ∉ ks → objGet st2 k = objGet st k) ∧
        (∀ j : Fin ks.length, ∃ cell,
          numbers[i + j.val]? = some cell ∧
          objGet st2 (ks.get j) =
            some (parseCoverage (if trimS cell = "" then "0"
              else trimS cell))) := by
  intro ks
  induction ks with
  | nil =>
    intro i st _ _
    exact ⟨st, rfl, fun k _ => rfl, fun j => absurd j.isLt (by simp)⟩
  | cons key ks ih =>
    intro i st hnd hlen
    have hi : i < numbers.length := by simp at hlen; omega
    have hcell0 : numbers[i]? = some numbers[i] := List.getElem?_eq_getElem hi
    obtain ⟨hkey, hnd2⟩ := List.nodup_cons.mp hnd
    obtain ⟨st2, hst2, hpres, hidx⟩ := ih (i + 1)
      (objSet st key (parseCoverage
        (if trimS numbers[i] = "" then "0" else trimS numbers[i])))
      hnd2 (by simp at hlen ⊢; omega)
    refine ⟨st2, ?_, ?_, ?_⟩
    · simp only [statsGo]
      rw [hcell0]
      exact hst2
    · intro k hk
      have hk1 : k ≠ key := fun e => hk (e ▸ List.mem_cons_self _ _)
      have hk2 : k ∉ ks := fun e => hk (List.mem_cons_of_mem _ e)
      rw [hpres k hk2, objGet_objSet_ne _ _ _ _ hk1]
    · intro j
      rcases j with ⟨jv, hj⟩
      cases jv with
      | zero =>
        refine ⟨numbers[i], by simpa using hcell0, ?_⟩
        rw [show (key :: ks).get ⟨0, hj⟩ = key from rfl]
        rw [hpres key hkey, objGet_objSet_self]
      | succ jv =>
        have hj2 : jv < ks.length := by simpa using hj
        obtain ⟨cell, hc, ho⟩ := hidx ⟨jv, hj2⟩
        refine ⟨cell, ?_, ?_⟩
        · rw [show i + (jv + 1) = i + 1 + jv from by omega]
          exact hc
        · exact ho

/-- C7 (amended): the numeric columns from the 4th column onward are zipped
positionally against the summary-header category list with `Coverage`
removed, in header order; a cell whose text is empty defaults to `"0"`.
(As stated the claim also covered a cell that is absent altogether; that case
throws instead of defaulting to zero — see the counterexample.) -/
theorem parseEntries_zips_columns (d : Doc) (summ : Summary) (r : Row)
    (nm cov : String) (keys : List String)
    (hps : parseStats d = .value (some summ))
    (hkeys : keys = (summ.map Prod.fst).filter (fun k => k ≠ "Coverage"))
    (hnd : keys.Nodup)
    (hname : (if tableType d = some NodeKind.Directory then r.coverDirectory
              else r.coverFile) = some nm)
    (hcov : r.coverPer = some cov)
    (hlen : keys.length ≤ r.numbers.length)
    (hrows : d.rows = [r]) :
    ∃ e : Entry,
      parseEntries d = .value [e] ∧
      e.path = trimS nm ∧
      e.type = tableType d ∧
      objGet e.stats "Coverage" = some (parseCoverage (trimS cov)) ∧
      ∀ j : Fin keys.length, ∃ cell,
        r.numbers[j.val]? = some cell ∧
        objGet e.stats (keys.get j) =
          some (parseCoverage (if trimS cell = "" then "0"
            else trimS cell)) := by
  obtain ⟨st2, hst2, hpres, hidx⟩ := statsGo_spec r.numbers keys 0
    [("Coverage", parseCoverage (trimS cov)), ("Total", some 0),
      ("Hit", some 0)]
    hnd (by simpa using hlen)
  refine ⟨⟨trimS nm, tableType d, st2⟩, ?_, rfl, rfl, ?_, ?_⟩
  · have hpe : parseEntries d =
        rowsGo (tableType d)
          ((summ.map Prod.fst).filter (fun k => k ≠ "Coverage")) d.rows := by
      unfold parseEntries
      rw [hps]
    rw [hpe, hrows, ← hkeys]
    have hrp : rowParse (tableType d) keys r =
        .value [⟨trimS nm, tableType d, st2⟩] := by
      unfold rowParse
      rw [hname, hcov]
      simp only []
      rw [hst2]
    simp only [rowsGo, hrp]
    simp
  · have hC : "Coverage" ∉ keys := by
      rw [hkeys]
      simp
    rw [hpres _ hC]
    rfl
  · intro j
    obtain ⟨cell, hc, ho⟩ := hidx j
    exact ⟨cell, by simpa using hc, ho⟩

/-- Counterexample to C7 as stated: a File-table row carrying no numeric
cells at all while the summary declares `Total` and `Hit` columns; the
missing cells do not default to zero — extraction throws
(`numbers[index].textContent` on an absent cell). -/
theorem parseEntries_zips_columns_counterexample :
    parseEntries (Doc.mk ["Coverage", "Total", "Hit"] ["50 %", "10", "5"]
      (some "File") [Row.mk none (some "a.c") (some "50 %") []]) =
      .thrown := by
  rfl

/-- Concrete row for the C7 witness: name cell `a.c`, coverage `5.0 %`, and
three numeric cells. -/
def exRow7 : Row := ⟨none, some "a.c", some "5.0 %", ["10", "8", "3"]⟩

/-- Concrete document for the C7 witness: summary header
`[Coverage, Total, Hit, UNC]`, a File table with one row. -/
def exDoc7 : Doc :=
  ⟨["Coverage", "Total", "Hit", "UNC"], ["5.0 %", "10", "8", "1"],
    some "File", [exRow7]⟩

/-- The summary object the C7 witness document parses to. -/
def exSumm7 : Summary :=
  match parseStats exDoc7 with
  | .value (some s) => s
  | _ => []

/-- The column schema of the C7 witness document: header categories minus
`Coverage`. -/
def exKeys7 : List String :=
  (exSumm7.map Prod.fst).filter (fun k => k ≠ "Coverage")

/-- Witness for C7 (amended) at the spec's own schema example
`[Coverage, Total, Hit, UNC]` with numeric row cells `["10", "8", "3"]`. -/
theorem parseEntries_zips_columns_witness :
    exKeys7.Nodup ∧
    ∃ e : Entry,
      parseEntries exDoc7 = .value [e] ∧
      e.path = trimS "a.c" ∧
      e.type = tableType exDoc7 ∧
      objGet e.stats "Coverage" = some (parseCoverage (trimS "5.0 %")) ∧
      ∀ j : Fin exKeys7.length, ∃ cell,
        exRow7.numbers[j.val]? = some cell ∧
        objGet e.stats (exKeys7.get j) =
          some (parseCoverage (if trimS cell = "" then "0"
            else trimS cell)) := by
  constructor
  · decide
  · exact parseEntries_zips_columns exDoc7 exSumm7 exRow7 "a.c" "5.0 %"
      exKeys7 rfl rfl (by decide) rfl rfl (by decide) rfl

/-! ## The tree builder (`parseRootIndexFile` / `parseChildren`) -/

/-- POSIX `isAbsolute` (model of the `@std/path` collaborator). -/
def isAbsP (p : String) : Bool := p.data.head? == some '/'

/-- POSIX `resolve(base, p)` for already-normalized inputs (model of the
`@std/path` collaborator): an absolute `p` wins, otherwise join under
`base`. -/
def resolveP (base p : String) : String :=
  if isAbsP p then p else base ++ "/" ++ p

/-- Strip a leading run of characters from a character list. -/
def chopBase : List Char → List Char → Option (List Char)
  | [], s => some s
  | _ :: _, [] => none
  | b :: bs, c :: cs => if b = c then chopBase bs cs else none

/-- POSIX `relative(base, p)` (model of the `@std/path` collaborator) in the
only case the builder's theorems exercise: `p` lying under `base`.  Other
inputs are returned unchanged (the real collaborator would produce `..`
segments; no theorem relies on that case). -/
def relativeP (base p : String) : String :=
  match chopBase (base ++ "/").data p.data with
  | some r => ⟨r⟩
  | none => p

/-- A node of the tree built by the parser (`GenhtmlReportFile` /
`GenhtmlReportDirectory`); directory children are typed as arbitrary nodes so
that the flattening performed by `parseChildren` is a provable property
rather than a typing assumption. -/
inductive PChild where
  | file (path : FilePath) (stats : Summary)
  | dir (path : FilePath) (stats : Summary) (children : List PChild)

/-- Path of a parsed node. -/
def PChild.fp : PChild → FilePath
  | .file p _ => p
  | .dir p _ _ => p

/-- Children of a parsed node (files have none). -/
def PChild.children : PChild → List PChild
  | .file _ _ => []
  | .dir _ _ cs => cs

/-- Whether a parsed node is a file. -/
def PChild.isFile : PChild → Bool
  | .file _ _ => true
  | .dir _ _ _ => false

/-- Prefetched recursive document input of the tree builder: the current
document plus, keyed by resolved absolute subdirectory path, the prefetched
document tree of each subdirectory (`findRootIndexFile` together with
`openDocument`, modelled as a pure lookup; a missing key models
`findRootIndexFile` throwing). -/
inductive DocTree where
  | node (doc : Doc) (subs : List (String × DocTree))

/-- Document of the root node of a prefetched tree. -/
def DocTree.doc : DocTree → Doc
  | .node d _ => d

theorem sizeOf_find?_sub_lt {subs : List (String × DocTree)}
    {pred : String × DocTree → Bool} {p : String × DocTree}
    (h : subs.find? pred = some p) : sizeOf p.2 < sizeOf subs := by
  have hlt := List.sizeOf_lt_of_mem (List.mem_of_find?_eq_some h)
  rcases p with ⟨s, t⟩
  simp at hlt ⊢
  omega

mutual

/-- Source `parseChildren` (fullest variant): parse this document's entries
and process them in order. -/
def parseChildren (rootDirectory : String) (t : DocTree) : Res (List PChild) :=
  match t with
  | .node doc subs =>
    match parseEntries doc with
    | .thrown => .thrown
    | .value entries => entriesGo rootDirectory subs entries
termination_by (sizeOf t, 0)
decreasing_by
  simp_wf
  apply Prod.Lex.left
  omega

/-- The `for (const entry of entries)` loop of source `parseChildren`: a
`File` entry becomes a file node; a `Directory` entry resolves its
subdocument, recurses with the subdirectory as the new base directory, keeps
only the `File` children of the recursive result while re-anchoring their
relative paths to this level's base, and becomes a directory node; an entry
of `undefined` kind is skipped. -/
def entriesGo (rootDirectory : String) (subs : List (String × DocTree)) :
    List Entry → Res (List PChild)
  | [] => .value []
  | e :: es =>
    match e.type with
    | none => entriesGo rootDirectory subs es
    | some .File =>
      match entriesGo rootDirectory subs es with
      | .thrown => .thrown
      | .value rest =>
        .value (PChild.file
          ⟨if isAbsP e.path then e.path else resolveP rootDirectory e.path,
           if isAbsP e.path then relativeP rootDirectory e.path else e.path⟩
          e.stats :: rest)
    | some .Directory =>
      match hfind : subs.find? (fun p =>
          p.1 == (if isAbsP e.path then e.path
            else resolveP rootDirectory e.path)) with
      | none => .thrown
      | some sub =>
        match parseChildren
            (resolveP rootDirectory
              (if isAbsP e.path then relativeP rootDirectory e.path
               else e.path)) sub.2 with
        | .thrown => .thrown
        | .value childChildren =>
          match entriesGo rootDirectory subs es with
          | .thrown => .thrown
          | .value rest =>
            .value (PChild.dir
              ⟨if isAbsP e.path then e.path
                else resolveP rootDirectory e.path,
               if isAbsP e.path then relativeP rootDirectory e.path
               else e.path⟩
              e.stats
              (childChildren.flatMap (fun c =>
                match c with
                | .file fp st =>
                  [PChild.file
                    ⟨fp.absolute, relativeP rootDirectory fp.absolute⟩ st]
                | .dir _ _ _ => [])) :: rest)
termination_by es => (sizeOf subs, es.length + 1)
decreasing_by
  all_goals simp_wf
  all_goals
    first
    | (apply Prod.Lex.right
       omega)
    | (apply Prod.Lex.left
       have h := sizeOf_find?_sub_lt hfind
       omega)

end

/-- Parsed report root (source `GenhtmlReportRoot` of the fullest variant). -/
structure PRoot where
  stats : Summary
  children : List PChild

/-- Source `GenhtmlReport` as the parser builds it. -/
structure PReport where
  directory : String
  root : PRoot

/-- Source `parseRootIndexFile` over a prefetched document tree;
`rootDirectory` stands for `resolve(dirname(filepath))`.  Returns `none`
("absent") exactly when the root document has no parseable summary,
otherwise builds the report from the root stats and the recursively parsed
children. -/
def parseRootIndexFile (rootDirectory : String) (t : DocTree) :
    Res (Option PReport) :=
  match parseStats t.doc with
  | .thrown => .thrown
  | .value none => .value none
  | .value (some rootStats) =>
    Res.map (fun children => some ⟨rootDirectory, ⟨rootStats, children⟩⟩)
      (parseChildren rootDirectory t)

/-- C8: the statistics extractor returns "absent" (`value none`, not an
error) exactly when the summary header cells or the summary value cells are
empty, and the tree builder returns "absent" exactly when the root document's
summary is absent in that sense; when the summary is present the builder
proceeds normally, building the report from the root stats and the parsed
children. -/
theorem parseStats_absent_iff :
    (∀ d : Doc, parseStats d = .value none ↔
      (d.summaryHeaders = [] ∨ d.summaryValues = [])) ∧
    (∀ (root : String) (t : DocTree),
      (parseRootIndexFile root t = .value none ↔
        parseStats t.doc = .value none) ∧
      (∀ s, parseStats t.doc = .value (some s) →
        parseRootIndexFile root t =
          Res.map (fun children => some ⟨root, ⟨s, children⟩⟩)
            (parseChildren root t))) := by
  refine ⟨?_, ?_⟩
  · intro d
    unfold parseStats
    by_cases h : (d.summaryHeaders.isEmpty || d.summaryValues.isEmpty) = true
    · rw [if_pos h]
      simp only [Bool.or_eq_true, List.isEmpty_iff] at h
      exact iff_of_true rfl h
    · rw [if_neg h]
      constructor
      · intro hc
        cases hsg : summGo d.summaryValues d.summaryHeaders 0 [] with
        | thrown => rw [hsg] at hc; exact absurd hc (by simp [Res.map])
        | value s2 => rw [hsg] at hc; simp [Res.map] at hc
      · intro hc
        exact absurd (by rcases hc with hc | hc <;> simp [hc]) h
  · intro root t
    constructor
    · unfold parseRootIndexFile
      cases hps : parseStats t.doc with
      | thrown => simp
      | value os =>
        cases os with
        | none => simp
        | some s =>
          simp only []
          cases hpc : parseChildren root t <;> simp [Res.map]
    · intro s hs
      unfold parseRootIndexFile
      rw [hs]

/-- Concrete document for the C8 witness: a root with a parseable summary and
no listing rows. -/
def exDoc8 : Doc :=
  ⟨["Coverage", "Total", "Hit"], ["50 %", "10", "5"], some "File", []⟩

/-- The summary object the C8 witness document parses to. -/
def exSumm8 : Summary :=
  match parseStats exDoc8 with
  | .value (some s) => s
  | _ => []

/-- Witness for C8: the empty-headers case yields "absent", and a document
with a present summary makes the builder proceed normally. -/
theorem parseStats_absent_iff_witness :
    parseStats (Doc.mk [] [] none []) = .value none ∧
    parseStats (DocTree.node exDoc8 []).doc = .value (some exSumm8) ∧
    parseRootIndexFile "/r" (DocTree.node exDoc8 []) =
      Res.map (fun children => some ⟨"/r", ⟨exSumm8, children⟩⟩)
        (parseChildren "/r" (DocTree.node exDoc8 [])) :=
  ⟨(parseStats_absent_iff.1 (Doc.mk [] [] none [])).2 (Or.inl rfl), rfl,
    (parseStats_absent_iff.2 "/r" (DocTree.node exDoc8 [])).2 exSumm8 rfl⟩

theorem entriesGo_flat (root : String) (subs : List (String × DocTree)) :
    ∀ (es : List Entry) (cs : List PChild),
      entriesGo root subs es = .value cs →
      ∀ c ∈ cs, ∀ gc ∈ c.children, gc.isFile = true := by
  intro es
  induction es with
  | nil =>
    intro cs h
    simp only [entriesGo] at h
    obtain rfl : ([] : List PChild) = cs := by injection h
    intro c hc
    cases hc
  | cons e es ih =>
    intro cs h
    simp only [entriesGo] at h
    split at h
    · exact ih cs h
    · split at h
      · exact absurd h (by simp)
      · rename_i rest hrest
        obtain rfl : _ = cs := by injection h
        intro c hc
        rcases List.mem_cons.mp hc with rfl | hc2
        · intro gc hgc
          cases hgc
        · exact ih rest hrest c hc2
    · split at h
      · exact absurd h (by simp)
      · rename_i sub hfind
        split at h
        · exact absurd h (by simp)
        · rename_i childCs hpc
          split at h
          · exact absurd h (by simp)
          · rename_i rest hrest
            obtain rfl : _ = cs := by injection h
            intro c hc
            rcases List.mem_cons.mp hc with rfl | hc2
            · intro gc hgc
              simp only [PChild.children] at hgc
              rw [List.mem_flatMap] at hgc
              obtain ⟨c2, _, hgc2⟩ := hgc
              cases c2 with
              | file fp st =>
                simp at hgc2
                subst hgc2
                rfl
              | dir fp st cs2 => cases hgc2
            · exact ih rest hrest c hc2

/-- C9: every directory node in a tree built by `parseChildren` has only file
children — when a subdirectory's own listing contains further directory
entries, those nested directory children (with everything below them) are
dropped while attaching children to the parent node, so the built tree never
nests a directory inside a directory. -/
theorem parseChildren_flattens (root : String) (t : DocTree)
    (cs : List PChild) (h : parseChildren root t = .value cs) :
    ∀ c ∈ cs, ∀ gc ∈ c.children, gc.isFile = true := by
  cases t with
  | node doc subs =>
    simp only [parseChildren] at h
    split at h
    · exact absurd h (by simp)
    · rename_i entries hpe
      exact entriesGo_flat root subs entries cs h

/-! ## Path re-anchoring invariant of the builder -/

theorem strData_append (s t : String) : (s ++ t).data = s.data ++ t.data := by
  rcases s with ⟨sd⟩
  rcases t with ⟨td⟩
  rfl

theorem strAssoc (a b c : String) : a ++ b ++ c = a ++ (b ++ c) := by
  rcases a with ⟨ad⟩
  rcases b with ⟨bd⟩
  rcases c with ⟨cd⟩
  show String.mk (ad ++ bd ++ cd) = String.mk (ad ++ (bd ++ cd))
  rw [List.append_assoc]

theorem chopBase_append (b r : List Char) : chopBase b (b ++ r) = some r := by
  induction b with
  | nil => rfl
  | cons c cs ih => simp [chopBase, ih]

theorem relativeP_under (base q : String) :
    relativeP base (base ++ "/" ++ q) = q := by
  unfold relativeP
  rw [show (base ++ "/" ++ q).data = (base ++ "/").data ++ q.data from
    strData_append (base ++ "/") q]
  rw [chopBase_append]

theorem isAbsP_join (p q : String) (hp : isAbsP p = false) (hne : p ≠ "") :
    isAbsP (p ++ q) = false ∧ (p ++ q) ≠ "" := by
  rcases p with ⟨pd⟩
  rcases q with ⟨qd⟩
  cases pd with
  | nil => exact absurd rfl hne
  | cons c cd =>
    constructor
    · unfold isAbsP at hp ⊢
      rw [show (String.mk (c :: cd) ++ String.mk qd).data =
        c :: (cd ++ qd) from rfl]
      simpa using hp
    · intro hcon
      have := congrArg String.data hcon
      simp at this

/-- Reduction of a Boolean `if` whose condition evaluated to `false`. -/
theorem ite_false_eq {α : Sort _} (a b : α) :
    (if false = true then a else b) = b := rfl

/-- A node's `relative` path is expressed against `root`: it is a relative,
non-empty path which `resolve`s under `root` to the node's `absolute`
path. -/
def goodPath (root : String) (fp : FilePath) : Prop :=
  isAbsP fp.relative = false ∧ fp.relative ≠ "" ∧
  resolveP root fp.relative = fp.absolute

/-- Well-formedness of a prefetched document tree (the genhtml layout): every
listing entry of every document names a relative, non-empty path. -/
def wfDoc : DocTree → Prop
  | .node doc subs =>
    (∀ es, parseEntries doc = .value es →
      ∀ e ∈ es, isAbsP e.path = false ∧ e.path ≠ "") ∧
    (∀ p ∈ subs, wfDoc p.2)
termination_by t => sizeOf t
decreasing_by
  simp_wf
  rename_i hmem
  have h1 := List.sizeOf_lt_of_mem hmem
  rcases p with ⟨s2, t2⟩
  simp at h1 ⊢
  omega

theorem goodPath_reanchored (root p : String) (fp2 : FilePath)
    (hp : isAbsP p = false) (hne : p ≠ "")
    (hgood : goodPath (resolveP root p) fp2) :
    goodPath root ⟨fp2.absolute, relativeP root fp2.absolute⟩ := by
  obtain ⟨h1, h2, h3⟩ := hgood
  have habs : fp2.absolute = root ++ "/" ++ (p ++ "/" ++ fp2.relative) := by
    rw [← h3]
    unfold resolveP
    simp only [h1, hp, ite_false_eq]
    simp only [strAssoc]
  have hps := isAbsP_join p "/" hp hne
  have hX := isAbsP_join (p ++ "/") fp2.relative hps.1 hps.2
  refine ⟨?_, ?_, ?_⟩
  · show isAbsP (relativeP root fp2.absolute) = false
    rw [habs, relativeP_under]
    exact hX.1
  · show relativeP root fp2.absolute ≠ ""
    rw [habs, relativeP_under]
    exact hX.2
  · show resolveP root (relativeP root fp2.absolute) = fp2.absolute
    rw [habs, relativeP_under]
    unfold resolveP
    rw [hX.1, ite_false_eq]

theorem parseChildren_good (n : ℕ) :
    ∀ (t : DocTree), sizeOf t ≤ n → ∀ (root : String) (cs : List PChild),
      wfDoc t → parseChildren root t = .value cs →
      ∀ c ∈ cs, goodPath root c.fp ∧
        ∀ gc ∈ c.children, goodPath root gc.fp := by
  induction n with
  | zero =>
    intro t h
    exact absurd h (by cases t; simp)
  | succ n ih =>
    rintro ⟨doc, subs⟩ hsize root cs hwf h
    rw [wfDoc] at hwf
    obtain ⟨hwfE, hwfS⟩ := hwf
    simp only [parseChildren] at h
    split at h
    · exact absurd h (by simp)
    · rename_i entries hpe
      have hents := hwfE entries hpe
      clear hpe
      clear hwfE
      revert h hents
      induction entries generalizing cs with
      | nil =>
        intro h _
        simp only [entriesGo] at h
        obtain rfl : ([] : List PChild) = cs := by injection h
        intro c hc
        cases hc
      | cons e es ihe =>
        intro h hents
        have he := hents e (List.mem_cons_self _ _)
        have hes := fun e2 h2 => hents e2 (List.mem_cons_of_mem _ h2)
        simp only [entriesGo] at h
        split at h
        · exact ihe cs h hes
        · -- File entry
          split at h
          · exact absurd h (by simp)
          · rename_i rest hrest
            obtain rfl : _ = cs := by injection h
            intro c hc
            rcases List.mem_cons.mp hc with rfl | hc2
            · constructor
              · simp only [he.1, ite_false_eq]
                exact ⟨he.1, he.2, rfl⟩
              · intro gc hgc
                cases hgc
            · exact ihe rest hrest hes c hc2
        · -- Directory entry
          split at h
          · exact absurd h (by simp)
          · rename_i sub hfind
            split at h
            · exact absurd h (by simp)
            · rename_i childCs hpc
              split at h
              · exact absurd h (by simp)
              · rename_i rest hrest
                obtain rfl : _ = cs := by injection h
                have hsubmem := List.mem_of_find?_eq_some hfind
                have hsubsize : sizeOf sub.2 ≤ n := by
                  have h1 := List.sizeOf_lt_of_mem hsubmem
                  rcases sub with ⟨s2, t2⟩
                  simp at h1 hsize ⊢
                  omega
                simp only [he.1, ite_false_eq] at hpc
                have hchild := ih sub.2 hsubsize
                  (resolveP root e.path) childCs (hwfS sub hsubmem) hpc
                intro c hc
                rcases List.mem_cons.mp hc with rfl | hc2
                · constructor
                  · simp only [he.1, ite_false_eq]
                    exact ⟨he.1, he.2, rfl⟩
                  · intro gc hgc
                    simp only [PChild.children] at hgc
                    rw [List.mem_flatMap] at hgc
                    obtain ⟨c2, hc2mem, hgc2⟩ := hgc
                    cases c2 with
                    | dir fp2 st2 cs2 => cases hgc2
                    | file fp2 st2 =>
                      simp at hgc2
                      subst hgc2
                      show goodPath root
                        ⟨fp2.absolute, relativeP root fp2.absolute⟩
                      exact goodPath_reanchored root e.path fp2 he.1 he.2
                        ((hchild (PChild.file fp2 st2) hc2mem).1)
                · exact ihe rest hrest hes c hc2

/-- C5: in a tree built by `parseChildren`, every node at every nesting depth
has its `relative` path expressed against the single root base directory:
the relative path is itself relative and non-empty, and resolving it against
the root base yields the node's absolute path — in particular a nested
file's relative path is never expressed relative to its immediate parent
directory.  The documents are assumed well-formed in the genhtml sense:
every listing entry names a relative, non-empty path. -/
theorem parseChildren_relative_to_root (root : String) (t : DocTree)
    (cs : List PChild) (hwf : wfDoc t)
    (h : parseChildren root t = .value cs) :
    ∀ c ∈ cs, goodPath root c.fp ∧
      ∀ gc ∈ c.children, goodPath root gc.fp :=
  parseChildren_good (sizeOf t) t le_rfl root cs hwf h

/-- Leaf document of the concrete builder example: a File table listing
`a.c`. -/
def exDocL : Doc :=
  ⟨["Coverage", "Total", "Hit"], ["50 %", "10", "5"], some "File",
    [⟨none, some "a.c", some "50 %", ["10", "5"]⟩]⟩

/-- Root document of the concrete builder example: a Directory table listing
`sub`. -/
def exDocR : Doc :=
  ⟨["Coverage", "Total", "Hit"], ["50 %", "10", "5"], some "Directory",
    [⟨some "sub", none, some "50 %", ["10", "5"]⟩]⟩

/-- Statistics of the leaf entry of the concrete builder example. -/
def exStatsL : Summary :=
  match parseEntries exDocL with
  | .value (e :: _) => e.stats
  | _ => []

/-- Statistics of the directory entry of the concrete builder example. -/
def exStatsR : Summary :=
  match parseEntries exDocR with
  | .value (e :: _) => e.stats
  | _ => []

/-- Prefetched subdirectory of the concrete builder example. -/
def exTsub : DocTree := .node exDocL []

/-- Prefetched document tree of the concrete builder example. -/
def exT : DocTree := .node exDocR [("/r/sub", exTsub)]

/-- The tree the concrete builder example parses to. -/
def exCs : List PChild :=
  [PChild.dir ⟨"/r/sub", "sub"⟩ exStatsR
    [PChild.file ⟨"/r/sub/a.c", "sub/a.c"⟩ exStatsL]]

theorem exT_eval : parseChildren "/r" exT = .value exCs := by
  have hpeR : parseEntries exDocR =
      .value [⟨"sub", some .Directory, exStatsR⟩] := rfl
  have hsub : parseChildren "/r/sub" exTsub =
      .value [PChild.file ⟨"/r/sub/a.c", "a.c"⟩ exStatsL] := by
    have hpeL : parseEntries exDocL =
        .value [⟨"a.c", some .File, exStatsL⟩] := rfl
    simp only [exTsub, parseChildren, hpeL]
    simp only [entriesGo]
    rfl
  simp only [exT, exCs, parseChildren, hpeR]
  simp only [entriesGo]
  split
  · rename_i hnone
    rw [show (List.find? (fun p => p.1 ==
        if isAbsP "sub" = true then "sub" else resolveP "/r" "sub")
        [("/r/sub", exTsub)]) = some ("/r/sub", exTsub) from rfl] at hnone
    cases hnone
  · rename_i sub hfind
    rw [show (List.find? (fun p => p.1 ==
        if isAbsP "sub" = true then "sub" else resolveP "/r" "sub")
        [("/r/sub", exTsub)]) = some ("/r/sub", exTsub) from rfl] at hfind
    obtain rfl : ("/r/sub", exTsub) = sub := by injection hfind
    rw [show parseChildren (resolveP "/r"
        (if isAbsP "sub" = true then relativeP "/r" "sub" else "sub"))
        ("/r/sub", exTsub).2 =
      Res.value [PChild.file ⟨"/r/sub/a.c", "a.c"⟩ exStatsL] from hsub]
    rfl

theorem exTsub_wf : wfDoc exTsub := by
  show wfDoc (DocTree.node exDocL [])
  rw [wfDoc]
  constructor
  · intro es h
    rw [show parseEntries exDocL =
      .value [⟨"a.c", some .File, exStatsL⟩] from rfl] at h
    obtain rfl : _ = es := by injection h
    intro e he
    rcases List.mem_cons.mp he with rfl | h2
    · exact ⟨rfl, by decide⟩
    · cases h2
  · intro p hp
    cases hp

theorem exT_wf : wfDoc exT := by
  show wfDoc (DocTree.node exDocR [("/r/sub", exTsub)])
  rw [wfDoc]
  constructor
  · intro es h
    rw [show parseEntries exDocR =
      .value [⟨"sub", some .Directory, exStatsR⟩] from rfl] at h
    obtain rfl : _ = es := by injection h
    intro e he
    rcases List.mem_cons.mp he with rfl | h2
    · exact ⟨rfl, by decide⟩
    · cases h2
  · intro p hp
    rcases List.mem_cons.mp hp with rfl | h2
    · exact exTsub_wf
    · cases h2

/-- Witness for C9 at a concrete input: a root listing one subdirectory
whose own listing holds one file; the built directory node carries only file
children. -/
theorem parseChildren_flattens_witness :
    parseChildren "/r" exT = .value exCs ∧
    ∀ c ∈ exCs, ∀ gc ∈ c.children, gc.isFile = true :=
  ⟨exT_eval, parseChildren_flattens "/r" exT exCs exT_eval⟩

/-- Witness for C5 at the same concrete input: both the directory node `sub`
and the nested file node get relative paths (`sub`, `sub/a.c`) anchored at
the root base `/r`. -/
theorem parseChildren_relative_to_root_witness :
    wfDoc exT ∧ parseChildren "/r" exT = .value exCs ∧
    ∀ c ∈ exCs, goodPath "/r" c.fp ∧
      ∀ gc ∈ c.children, goodPath "/r" gc.fp :=
  ⟨exT_wf, exT_eval,
    parseChildren_relative_to_root "/r" exT exCs exT_wf exT_eval⟩

end Genhtml
